import Mathlib

/-!
# Verification of the personal workout tracker core

Shallow embedding of `fitness_tracker_app.py`: the record store is a
`List Record`, Python strings are `List Char`, `sets`/`reps` are `Int`
(numpy `i4` values, machine width idealised), `weight` is `ℚ` (numpy `f4`,
idealised to exact rationals).  The CSV layer is modelled at the granularity
of rows of fields (`List (List Char)`), since Python's `csv` module
round-trips field lists faithfully.
-/

/-- Convert a Lean string literal to the `List Char` representation used for
Python strings throughout this development. -/
def str (s : String) : List Char := s.toList

/-- Numeric value of a decimal digit character. -/
def digitVal (c : Char) : Nat := c.toNat - 48

/-- Value of a digit list given least-significant digit first. -/
def valueRevList : List Char → Nat
  | [] => 0
  | c :: t => digitVal c + 10 * valueRevList t

/-- Parse a non-empty all-digit character list as a natural number
(most-significant digit first), as Python's `int` does for unsigned input. -/
def parseDigits (cs : List Char) : Option Nat :=
  if cs ≠ [] ∧ cs.all Char.isDigit then some (valueRevList cs.reverse) else none

/-- Decimal digits of `n`, least-significant first (empty for `0`), with
structural fuel so that the kernel can evaluate it (`fuel ≥ n` suffices). -/
def natDigitsRevAux : Nat → Nat → List Char
  | _, 0 => []
  | n, fuel + 1 =>
    if n = 0 then [] else Nat.digitChar (n % 10) :: natDigitsRevAux (n / 10) fuel

/-- Decimal digits of `n`, least-significant first (empty for `0`). -/
def natDigitsRev (n : Nat) : List Char := natDigitsRevAux n n

/-- Decimal rendering of a natural number, as Python's `str`. -/
def natToChars (n : Nat) : List Char :=
  if n = 0 then ['0'] else (natDigitsRev n).reverse

/-- Decimal rendering of an integer, as Python's `str`. -/
def intToChars (i : Int) : List Char :=
  if i < 0 then '-' :: natToChars i.natAbs else natToChars i.natAbs

/-- Python's `str.strip()`: drop whitespace from both ends. -/
def pyStrip (cs : List Char) : List Char :=
  ((cs.dropWhile Char.isWhitespace).reverse.dropWhile Char.isWhitespace).reverse

/-- Python's `int(s)`: strip whitespace, optional sign, decimal digits.
(Underscore separators and non-decimal forms accepted by CPython are not
modelled; no input in this development uses them.) -/
def pyParseInt (cs0 : List Char) : Option Int :=
  if (pyStrip cs0).head? = some '-' then
    (parseDigits (pyStrip cs0).tail).map (fun n => -(n : Int))
  else if (pyStrip cs0).head? = some '+' then
    (parseDigits (pyStrip cs0).tail).map (fun n => (n : Int))
  else (parseDigits (pyStrip cs0)).map (fun n => (n : Int))

/-- Unsigned part of Python's `float(s)` restricted to plain decimal forms
`digits`, `digits.digits`, `.digits`, `digits.` (exponents, `inf`, `nan`
are not modelled; no input in this development uses them). -/
def parseUnsignedFloat (cs : List Char) : Option ℚ :=
  if cs.dropWhile (fun c => c != '.') = [] then
    if cs.takeWhile (fun c => c != '.') ≠ [] ∧
        (cs.takeWhile (fun c => c != '.')).all Char.isDigit then
      some ((valueRevList (cs.takeWhile (fun c => c != '.')).reverse : ℚ))
    else none
  else
    if (cs.takeWhile (fun c => c != '.') ≠ [] ∨ (cs.dropWhile (fun c => c != '.')).tail ≠ []) ∧
        (cs.takeWhile (fun c => c != '.')).all Char.isDigit ∧
        ((cs.dropWhile (fun c => c != '.')).tail).all Char.isDigit then
      some ((valueRevList (cs.takeWhile (fun c => c != '.')).reverse : ℚ) +
        (valueRevList ((cs.dropWhile (fun c => c != '.')).tail).reverse : ℚ) /
          (10 : ℚ) ^ ((cs.dropWhile (fun c => c != '.')).tail).length)
    else none

/-- Python's `float(s)`: strip whitespace, optional sign, decimal literal. -/
def pyParseFloat (cs0 : List Char) : Option ℚ :=
  if (pyStrip cs0).head? = some '-' then
    (parseUnsignedFloat (pyStrip cs0).tail).map (fun q => -q)
  else if (pyStrip cs0).head? = some '+' then
    parseUnsignedFloat (pyStrip cs0).tail
  else parseUnsignedFloat (pyStrip cs0)

-- ## Basic digit lemmas

theorem digitChar_props {m : Nat} (h : m < 10) :
    (Nat.digitChar m).isDigit = true ∧ (Nat.digitChar m).isWhitespace = false ∧
    Nat.digitChar m ≠ '-' ∧ Nat.digitChar m ≠ '+' ∧ Nat.digitChar m ≠ '.' := by
  interval_cases m <;> exact ⟨by decide, by decide, by decide, by decide, by decide⟩

theorem digitVal_digitChar {m : Nat} (h : m < 10) : digitVal (Nat.digitChar m) = m := by
  interval_cases m <;> decide

theorem natDigitsRevAux_spec :
    ∀ (fuel n : Nat), n ≤ fuel →
      valueRevList (natDigitsRevAux n fuel) = n ∧
      (∀ c ∈ natDigitsRevAux n fuel, ∃ m, m < 10 ∧ c = Nat.digitChar m) ∧
      (n ≠ 0 → natDigitsRevAux n fuel ≠ [])
  | 0, n, hle => by
    interval_cases n
    exact ⟨rfl, by simp [natDigitsRevAux], fun h => absurd rfl h⟩
  | fuel + 1, n, hle => by
    by_cases h : n = 0
    · subst h
      exact ⟨rfl, by simp [natDigitsRevAux], fun h => absurd rfl h⟩
    · have hrec := natDigitsRevAux_spec fuel (n / 10)
        (by omega)
      refine ⟨?_, ?_, ?_⟩
      · simp only [natDigitsRevAux, h, if_false, valueRevList]
        rw [hrec.1, digitVal_digitChar (Nat.mod_lt _ (by norm_num))]
        omega
      · simp only [natDigitsRevAux, h, if_false, List.mem_cons]
        rintro c (rfl | hc)
        · exact ⟨n % 10, Nat.mod_lt _ (by norm_num), rfl⟩
        · exact hrec.2.1 c hc
      · intro _
        simp [natDigitsRevAux, h]

theorem valueRevList_natDigitsRev (n : Nat) : valueRevList (natDigitsRev n) = n :=
  (natDigitsRevAux_spec n n le_rfl).1

theorem natDigitsRev_mem (n : Nat) :
    ∀ c ∈ natDigitsRev n, ∃ m, m < 10 ∧ c = Nat.digitChar m :=
  (natDigitsRevAux_spec n n le_rfl).2.1

theorem natToChars_ne_nil (n : Nat) : natToChars n ≠ [] := by
  unfold natToChars
  by_cases h : n = 0
  · simp [h]
  · simp only [h, if_false, ne_eq, List.reverse_eq_nil_iff]
    exact (natDigitsRevAux_spec n n le_rfl).2.2 h

theorem natToChars_mem (n : Nat) :
    ∀ c ∈ natToChars n, ∃ m, m < 10 ∧ c = Nat.digitChar m := by
  unfold natToChars
  by_cases h : n = 0
  · simp only [h, if_true, List.mem_singleton]
    rintro c rfl
    exact ⟨0, by norm_num, rfl⟩
  · simp only [h, if_false, List.mem_reverse]
    exact natDigitsRev_mem n

theorem valueRevList_natToChars (n : Nat) : valueRevList (natToChars n).reverse = n := by
  unfold natToChars
  by_cases h : n = 0
  · simp [h, valueRevList, digitVal]
  · simp only [h, if_false, List.reverse_reverse]
    exact valueRevList_natDigitsRev n

theorem natToChars_all_digit (n : Nat) : (natToChars n).all Char.isDigit = true := by
  rw [List.all_eq_true]
  intro c hc
  obtain ⟨m, hm, rfl⟩ := natToChars_mem n c hc
  exact (digitChar_props hm).1

theorem parseDigits_natToChars (n : Nat) : parseDigits (natToChars n) = some n := by
  unfold parseDigits
  rw [if_pos ⟨natToChars_ne_nil n, natToChars_all_digit n⟩, valueRevList_natToChars]

-- ## Strip and takeWhile/dropWhile lemmas

theorem dropWhile_eq_self_of_all {p : Char → Bool} :
    ∀ (cs : List Char), (∀ c ∈ cs, p c = false) → cs.dropWhile p = cs
  | [], _ => rfl
  | c :: t, h => by
    simp [List.dropWhile_cons, h c (by simp)]

theorem pyStrip_eq_self {cs : List Char} (h : ∀ c ∈ cs, c.isWhitespace = false) :
    pyStrip cs = cs := by
  unfold pyStrip
  rw [dropWhile_eq_self_of_all cs h]
  rw [dropWhile_eq_self_of_all cs.reverse (fun c hc => h c (List.mem_reverse.mp hc))]
  exact List.reverse_reverse cs

theorem takeWhile_append_of_all {p : Char → Bool} :
    ∀ (xs ys : List Char), (∀ c ∈ xs, p c = true) →
      (xs ++ ys).takeWhile p = xs ++ ys.takeWhile p
  | [], ys, _ => rfl
  | x :: xs, ys, h => by
    simp only [List.cons_append, List.takeWhile_cons, h x (by simp), if_true]
    rw [takeWhile_append_of_all xs ys (fun c hc => h c (by simp [hc]))]

theorem dropWhile_append_of_all {p : Char → Bool} :
    ∀ (xs ys : List Char), (∀ c ∈ xs, p c = true) →
      (xs ++ ys).dropWhile p = ys.dropWhile p
  | [], ys, _ => rfl
  | x :: xs, ys, h => by
    simp only [List.cons_append, List.dropWhile_cons, h x (by simp), if_true]
    exact dropWhile_append_of_all xs ys (fun c hc => h c (by simp [hc]))

-- ## Integer printer/parser round-trip

theorem pyParseInt_natToChars (n : Nat) : pyParseInt (natToChars n) = some (n : Int) := by
  have hmem := natToChars_mem n
  have hws : ∀ c ∈ natToChars n, c.isWhitespace = false := by
    intro c hc
    obtain ⟨m, hm, rfl⟩ := hmem c hc
    exact (digitChar_props hm).2.1
  obtain ⟨a, t, hat⟩ := List.exists_cons_of_ne_nil (natToChars_ne_nil n)
  obtain ⟨m, hm, ha⟩ := hmem a (by rw [hat]; simp)
  have hm1 : (pyStrip (natToChars n)).head? ≠ some '-' := by
    rw [pyStrip_eq_self hws, hat]
    simp only [List.head?_cons, ne_eq, Option.some.injEq]
    exact ha ▸ (digitChar_props hm).2.2.1
  have hm2 : (pyStrip (natToChars n)).head? ≠ some '+' := by
    rw [pyStrip_eq_self hws, hat]
    simp only [List.head?_cons, ne_eq, Option.some.injEq]
    exact ha ▸ (digitChar_props hm).2.2.2.1
  unfold pyParseInt
  rw [if_neg hm1, if_neg hm2, pyStrip_eq_self hws, parseDigits_natToChars]
  rfl

theorem pyParseInt_intToChars {i : Int} (h : 0 ≤ i) :
    pyParseInt (intToChars i) = some i := by
  unfold intToChars
  rw [if_neg (by omega)]
  rw [pyParseInt_natToChars]
  congr 1
  omega

-- ## The %.2f formatter and its round-trip

/-- Round a rational to the nearest integer, ties to even, as IEEE formatting
of a binary double does for the exact represented value. -/
def roundHalfEven (q : ℚ) : ℤ :=
  if q - ⌊q⌋ < 1 / 2 then ⌊q⌋
  else if 1 / 2 < q - ⌊q⌋ then ⌊q⌋ + 1
  else if ⌊q⌋ % 2 = 0 then ⌊q⌋ else ⌊q⌋ + 1

/-- The weight value that survives rendering with two decimal places. -/
def round2 (w : ℚ) : ℚ := (roundHalfEven (w * 100) : ℚ) / 100

/-- Digits of `n` hundredths written as `intpart.dd`. -/
def fracFormat2 (n : Nat) : List Char :=
  natToChars (n / 100) ++ '.' :: [Nat.digitChar (n % 100 / 10), Nat.digitChar (n % 100 % 10)]

/-- Python's `f"{w:.2f}"` on the idealised rational weight. -/
def formatWeight2 (w : ℚ) : List Char :=
  if roundHalfEven (w * 100) < 0 then '-' :: fracFormat2 (roundHalfEven (w * 100)).natAbs
  else fracFormat2 (roundHalfEven (w * 100)).toNat

theorem roundHalfEven_nonneg {q : ℚ} (h : 0 ≤ q) : 0 ≤ roundHalfEven q := by
  have hf : (0 : ℤ) ≤ ⌊q⌋ := Int.floor_nonneg.mpr h
  unfold roundHalfEven
  split
  · exact hf
  · split
    · omega
    · split
      · exact hf
      · omega

theorem roundHalfEven_intCast (k : ℤ) : roundHalfEven (k : ℚ) = k := by
  unfold roundHalfEven
  rw [Int.floor_intCast]
  rw [if_pos]
  simp

theorem fracFormat2_mem (n : Nat) :
    ∀ c ∈ fracFormat2 n, c = '.' ∨ ∃ m, m < 10 ∧ c = Nat.digitChar m := by
  intro c hc
  unfold fracFormat2 at hc
  rw [List.mem_append] at hc
  rcases hc with hc | hc
  · exact Or.inr (natToChars_mem _ c hc)
  · rcases hc with _ | ⟨_, hc⟩
    · exact Or.inl rfl
    · rcases hc with _ | ⟨_, hc⟩
      · exact Or.inr ⟨n % 100 / 10, by omega, rfl⟩
      · rcases hc with _ | ⟨_, hc⟩
        · exact Or.inr ⟨n % 100 % 10, by omega, rfl⟩
        · cases hc

theorem fracFormat2_no_ws (n : Nat) : ∀ c ∈ fracFormat2 n, c.isWhitespace = false := by
  intro c hc
  rcases fracFormat2_mem n c hc with rfl | ⟨m, hm, rfl⟩
  · decide
  · exact (digitChar_props hm).2.1

theorem valueRevList_two_digits (k : Nat) (h : k < 100) :
    valueRevList [Nat.digitChar (k % 10), Nat.digitChar (k / 10)] = k := by
  simp only [valueRevList]
  rw [digitVal_digitChar (by omega), digitVal_digitChar (by omega)]
  omega

theorem parseUnsignedFloat_fracFormat2 (n : Nat) :
    parseUnsignedFloat (fracFormat2 n) = some ((n : ℚ) / 100) := by
  have hipmem := natToChars_mem (n / 100)
  have hipdot : ∀ c ∈ natToChars (n / 100), (c != '.') = true := by
    intro c hc
    obtain ⟨m, hm, rfl⟩ := hipmem c hc
    simpa using (digitChar_props hm).2.2.2.2
  have htake : (fracFormat2 n).takeWhile (fun c => c != '.') = natToChars (n / 100) := by
    unfold fracFormat2
    rw [takeWhile_append_of_all _ _ hipdot]
    simp [List.takeWhile_cons]
  have hdrop : (fracFormat2 n).dropWhile (fun c => c != '.') =
      '.' :: [Nat.digitChar (n % 100 / 10), Nat.digitChar (n % 100 % 10)] := by
    unfold fracFormat2
    rw [dropWhile_append_of_all _ _ hipdot]
    simp [List.dropWhile_cons]
  have hrev : valueRevList
      (List.reverse [Nat.digitChar (n % 100 / 10), Nat.digitChar (n % 100 % 10)]) =
      n % 100 := by
    simp only [List.reverse_cons, List.reverse_nil, List.nil_append, List.cons_append]
    exact valueRevList_two_digits (n % 100) (Nat.mod_lt _ (by norm_num))
  have hsplit : (100 : ℚ) * ((n / 100 : Nat) : ℚ) + ((n % 100 : Nat) : ℚ) = (n : ℚ) := by
    exact_mod_cast Nat.div_add_mod n 100
  unfold parseUnsignedFloat
  rw [htake, hdrop]
  rw [if_neg (by simp)]
  rw [if_pos]
  · simp only [List.tail_cons]
    rw [valueRevList_natToChars, hrev]
    simp only [List.length_cons, List.length_nil]
    congr 1
    rw [show ((10 : ℚ) ^ (0 + 1 + 1 : Nat)) = 100 by norm_num]
    field_simp
    linarith [hsplit]
  · simp only [List.tail_cons]
    refine ⟨Or.inl (natToChars_ne_nil _), natToChars_all_digit _, ?_⟩
    simp only [List.all_cons, List.all_nil, Bool.and_true]
    rw [(digitChar_props (show n % 100 / 10 < 10 by omega)).1,
      (digitChar_props (show n % 100 % 10 < 10 by omega)).1]
    rfl

theorem pyParseFloat_formatWeight2 {w : ℚ} (hw : 0 ≤ w) :
    pyParseFloat (formatWeight2 w) = some (round2 w) := by
  have hc : 0 ≤ roundHalfEven (w * 100) := roundHalfEven_nonneg (by positivity)
  have hfmt : formatWeight2 w = fracFormat2 (roundHalfEven (w * 100)).toNat := by
    unfold formatWeight2
    rw [if_neg (by omega)]
  set q : Nat := (roundHalfEven (w * 100)).toNat with hq
  have hws : ∀ c ∈ fracFormat2 q, c.isWhitespace = false := fracFormat2_no_ws q
  have hne : fracFormat2 q ≠ [] := by
    unfold fracFormat2
    simp [natToChars_ne_nil]
  obtain ⟨a, t, hat⟩ := List.exists_cons_of_ne_nil hne
  have hhead : ∀ s : Char, s = '-' ∨ s = '+' → (pyStrip (fracFormat2 q)).head? ≠ some s := by
    intro s hs
    rw [pyStrip_eq_self hws, hat]
    simp only [List.head?_cons, ne_eq, Option.some.injEq]
    intro heq
    have ha : a ∈ fracFormat2 q := by rw [hat]; simp
    rcases fracFormat2_mem q a ha with rfl | ⟨m, hm, rfl⟩
    · rcases hs with rfl | rfl <;> simp at heq
    · rcases hs with rfl | rfl
      · exact (digitChar_props hm).2.2.1 heq
      · exact (digitChar_props hm).2.2.2.1 heq
  unfold pyParseFloat
  rw [hfmt, if_neg (hhead '-' (Or.inl rfl)), if_neg (hhead '+' (Or.inr rfl)),
    pyStrip_eq_self hws, parseUnsignedFloat_fracFormat2]
  unfold round2
  congr 1
  rw [hq]
  congr 1
  exact_mod_cast Int.toNat_of_nonneg hc

-- ## Data model

/-- One logged set, one element of the numpy structured array with dtype
`[('date','U10'),('exercise','U30'),('sets','i4'),('reps','i4'),('weight','f4')]`.
Machine widths are idealised: `i4` as `Int`, `f4` as `ℚ`, `U` strings as
`List Char` (truncation to the `U` widths is modelled by `truncRecord`). -/
structure Record where
  date : List Char
  exercise : List Char
  sets : Int
  reps : Int
  weight : ℚ
deriving DecidableEq, Repr

/-- Storing a value into the structured array truncates the string fields to
the dtype widths `U10` and `U30` (numpy truncates silently). -/
def truncRecord (r : Record) : Record :=
  { r with date := r.date.take 10, exercise := r.exercise.take 30 }

/-- The Record invariants of the spec: non-empty exercise, positive sets and
reps, non-negative weight, and field lengths within the dtype widths. -/
def RecordValid (r : Record) : Prop :=
  r.exercise ≠ [] ∧ 0 < r.sets ∧ 0 < r.reps ∧ 0 ≤ r.weight ∧
    r.date.length ≤ 10 ∧ r.exercise.length ≤ 30

instance (r : Record) : Decidable (RecordValid r) := by
  unfold RecordValid
  infer_instance

/-- `calculate_total_volume`: `0.0` on an empty array, else
`np.sum(a['sets'] * a['reps'] * a['weight'])`. -/
def calculate_total_volume (workout_array : List Record) : ℚ :=
  if workout_array.length = 0 then 0
  else (workout_array.map (fun r => (r.sets : ℚ) * (r.reps : ℚ) * r.weight)).sum

-- ## Store operations (numpy array indexing semantics)

/-- Resolve a Python index against an array of length `n`: indices in
`[0, n)` are used directly, indices in `[-n, 0)` wrap from the end, anything
else raises `IndexError` (`none`). -/
def normIdx (n : Nat) (i : Int) : Option Nat :=
  if 0 ≤ i ∧ i < (n : Int) then some i.toNat
  else if -(n : Int) ≤ i ∧ i < 0 then some (i + (n : Int)).toNat
  else none

/-- Read `session_log[i]`; `none` models `IndexError`. -/
def np_get (log : List Record) (i : Int) : Option Record :=
  (normIdx log.length i).bind (fun j => log[j]?)

/-- `session_log[i] = (date, exercise, sets, reps, weight)`: in-place
assignment, truncating the stored strings to the dtype widths;
`none` models `IndexError`. -/
def np_set (log : List Record) (i : Int) (r : Record) : Option (List Record) :=
  (normIdx log.length i).map (fun j => log.set j (truncRecord r))

/-- `np.delete(session_log, i, axis=0)`; `none` models `IndexError`. -/
def np_delete (log : List Record) (i : Int) : Option (List Record) :=
  (normIdx log.length i).map (fun j => log.eraseIdx j)

/-- `np.concatenate([session_log, np.array([entry], dtype=DTYPE)])`: append
one entry, truncating its strings to the dtype widths. -/
def np_append (log : List Record) (r : Record) : List Record :=
  log ++ [truncRecord r]

/-- The validation and append logic of `add_workout_entry`: strip every raw
field, parse `sets`/`reps` with `int` and `weight` with `float`, reject
(`none`, the error dialog) when a parse fails or
`sets <= 0 or reps <= 0 or weight < 0 or not exercise`, and otherwise append
the new entry to `session_log`. -/
def add_workout_entry (log : List Record) (dateS exerciseS setsS repsS weightS : List Char) :
    Option (List Record) :=
  (pyParseInt setsS).bind fun sets =>
    (pyParseInt repsS).bind fun reps =>
      (pyParseFloat weightS).bind fun weight =>
        if sets ≤ 0 ∨ reps ≤ 0 ∨ weight < 0 ∨ pyStrip exerciseS = [] then none
        else some (np_append log ⟨pyStrip dateS, pyStrip exerciseS, sets, reps, weight⟩)

-- ## Persistence codec (rows of CSV fields)

/-- The header row `['date', 'exercise', 'sets', 'reps', 'weight']`. -/
def headerRow : List (List Char) :=
  [str "date", str "exercise", str "sets", str "reps", str "weight"]

/-- One CSV data row written by `_save_data`:
`[row[0], row[1], row[2], row[3], f"{row[4]:.2f}"]`. -/
def recordToRow (r : Record) : List (List Char) :=
  [r.date, r.exercise, intToChars r.sets, intToChars r.reps, formatWeight2 r.weight]

/-- `_save_data`: the header row followed by one row per record, in store
order. -/
def save_data (log : List Record) : List (List (List Char)) :=
  headerRow :: log.map recordToRow

/-- Parse one 5-field CSV row as
`(row[0], row[1], int(row[2]), int(row[3]), float(row[4]))`, truncating the
strings as the structured-array conversion does; `none` models the
`ValueError` escaping to `_load_data`'s handler. -/
def parseRow (row : List (List Char)) : Option Record :=
  (pyParseInt (row.getD 2 [])).bind fun si =>
    (pyParseInt (row.getD 3 [])).bind fun ri =>
      (pyParseFloat (row.getD 4 [])).map fun wi =>
        truncRecord ⟨row.getD 0 [], row.getD 1 [], si, ri, wi⟩

/-- The reader loop of `_load_data`: keep every row with exactly 5 fields,
propagating a parse failure (`none`) out of the whole loop. -/
def loadRows : List (List (List Char)) → Option (List Record)
  | [] => some []
  | row :: rest =>
    if row.length = 5 then
      (parseRow row).bind fun r => (loadRows rest).map fun l => r :: l
    else loadRows rest

/-- `_load_data`: empty store when the file does not exist; otherwise skip
the first row (`next(reader, None)`), parse the remaining rows, and fall back
to the empty store when any exception is raised. -/
def load_data (fileExists : Bool) (rows : List (List (List Char))) : List Record :=
  if !fileExists then []
  else (loadRows rows.tail).getD []

/-- Check that a rendered field has exactly two digits after a decimal point
(and no other decimal point): the last two characters are digits, the third
from the end is the only `.`. -/
def twoFracDigits (cs : List Char) : Bool :=
  (cs.reverse.getD 0 ' ').isDigit && (cs.reverse.getD 1 ' ').isDigit &&
    (cs.reverse.getD 2 ' ' == '.') && (cs.reverse.drop 3).all (fun c => c != '.')

-- ## Sanity checks on concrete inputs

example : pyParseInt (str "3") = some 3 := by decide
example : pyParseInt (str " -12 ") = some (-12) := by decide
example : pyParseInt (str "abc") = none := by decide
example : pyParseInt (str "") = none := by decide
example : pyParseFloat (str "10.0") = some 10 := by with_unfolding_all rfl
example : pyParseFloat (str "-0.01") = some (-1 / 100) := by with_unfolding_all rfl
example : pyParseFloat (str "0") = some 0 := by with_unfolding_all rfl
example : pyParseFloat (str ".") = none := by with_unfolding_all rfl
example : formatWeight2 60 = str "60.00" := by with_unfolding_all rfl
example : formatWeight2 (1 / 8) = str "0.12" := by with_unfolding_all rfl
example : calculate_total_volume [⟨str "2024-01-01", str "Squat", 3, 5, 100⟩] = 1500 := by
  with_unfolding_all rfl

-- ## Round-trip support lemmas

theorem truncRecord_eq_self {r : Record} (hd : r.date.length ≤ 10)
    (he : r.exercise.length ≤ 30) : truncRecord r = r := by
  unfold truncRecord
  rw [List.take_of_length_le hd, List.take_of_length_le he]

theorem parseRow_recordToRow {r : Record} (h : RecordValid r) :
    parseRow (recordToRow r) = some { r with weight := round2 r.weight } := by
  obtain ⟨hex, hs, hr, hw, hd10, he30⟩ := h
  unfold parseRow recordToRow
  simp only [List.getD_cons_zero, List.getD_cons_succ]
  rw [pyParseInt_intToChars (le_of_lt hs), pyParseInt_intToChars (le_of_lt hr),
    pyParseFloat_formatWeight2 hw]
  simp only [Option.some_bind, Option.map_some']
  rw [truncRecord_eq_self
    (r := ⟨r.date, r.exercise, r.sets, r.reps, round2 r.weight⟩) hd10 he30]

theorem recordToRow_length (r : Record) : (recordToRow r).length = 5 := rfl

theorem loadRows_map_recordToRow (log : List Record) (h : ∀ r ∈ log, RecordValid r) :
    loadRows (log.map recordToRow) =
      some (log.map fun r => { r with weight := round2 r.weight }) := by
  induction log with
  | nil => rfl
  | cons r rest ih =>
    simp only [List.map_cons]
    unfold loadRows
    rw [if_pos (recordToRow_length r)]
    rw [parseRow_recordToRow (h r (by simp)), Option.some_bind]
    rw [ih (fun x hx => h x (by simp [hx]))]
    rfl

theorem round2_eq_self {w : ℚ} (hden : (w * 100).den = 1) : round2 w = w := by
  have hnum : ((w * 100).num : ℚ) = w * 100 := by
    conv_rhs => rw [← Rat.num_div_den (w * 100)]
    rw [hden]
    simp
  unfold round2
  rw [← hnum, roundHalfEven_intCast, hnum]
  field_simp

-- ## Index normalisation lemmas

theorem normIdx_eq_none_iff (n : Nat) (i : Int) :
    normIdx n i = none ↔ (i < -(n : Int) ∨ (n : Int) ≤ i) := by
  unfold normIdx
  split_ifs with h1 h2 <;> simp <;> omega

theorem normIdx_some_lt {n : Nat} {i : Int} {j : Nat} (h : normIdx n i = some j) : j < n := by
  unfold normIdx at h
  split_ifs at h with h1 h2 <;> cases h <;> omega

theorem normIdx_of_lt {n i : Nat} (h : i < n) : normIdx n (i : Int) = some i := by
  unfold normIdx
  rw [if_pos (by omega)]
  simp

theorem np_get_coe {log : List Record} {i : Nat} (h : i < log.length) :
    np_get log (i : Int) = log[i]? := by
  unfold np_get
  rw [normIdx_of_lt h, Option.some_bind]

-- ## Load loop characterisation

theorem loadRows_eq_filterMap :
    ∀ (rows : List (List (List Char))) (l : List Record), loadRows rows = some l →
      l = (rows.filter (fun row => row.length == 5)).filterMap parseRow
  | [], l, h => by
    cases h
    rfl
  | row :: rest, l, h => by
    unfold loadRows at h
    by_cases h5 : row.length = 5
    · rw [if_pos h5] at h
      cases hp : parseRow row with
      | none =>
        rw [hp] at h
        simp at h
      | some r =>
        rw [hp] at h
        simp only [Option.some_bind] at h
        cases hl : loadRows rest with
        | none =>
          rw [hl] at h
          simp at h
        | some l' =>
          rw [hl] at h
          simp only [Option.map_some', Option.some.injEq] at h
          subst h
          rw [List.filter_cons_of_pos (by simpa using h5), List.filterMap_cons_some hp]
          rw [loadRows_eq_filterMap rest l' hl]
    · rw [if_neg h5] at h
      rw [List.filter_cons_of_neg (by simpa using h5)]
      exact loadRows_eq_filterMap rest l h

theorem parseRow_mem_bounds {row : List (List Char)} {r : Record}
    (h : parseRow row = some r) : r.date.length ≤ 10 ∧ r.exercise.length ≤ 30 := by
  unfold parseRow at h
  cases h2 : pyParseInt (row.getD 2 []) with
  | none => rw [h2] at h; simp at h
  | some si =>
    rw [h2] at h
    cases h3 : pyParseInt (row.getD 3 []) with
    | none => rw [h3] at h; simp at h
    | some ri =>
      rw [h3] at h
      cases h4 : pyParseFloat (row.getD 4 []) with
      | none => rw [h4] at h; simp at h
      | some wi =>
        rw [h4] at h
        simp only [Option.some_bind, Option.map_some', Option.some.injEq] at h
        subst h
        unfold truncRecord
        constructor
        · simp
        · simp

-- ## Formatter shape lemma

theorem twoFracDigits_append (pre : List Char) (n : Nat)
    (hpre : ∀ c ∈ pre, (c != '.') = true) :
    twoFracDigits (pre ++ fracFormat2 n) = true := by
  have hX : ∀ c ∈ (pre ++ natToChars (n / 100)).reverse, (c != '.') = true := by
    intro c hc
    rw [List.mem_reverse, List.mem_append] at hc
    rcases hc with hc | hc
    · exact hpre c hc
    · obtain ⟨m, hm, rfl⟩ := natToChars_mem _ c hc
      simpa using (digitChar_props hm).2.2.2.2
  have hrev : (pre ++ fracFormat2 n).reverse =
      Nat.digitChar (n % 100 % 10) :: Nat.digitChar (n % 100 / 10) :: '.' ::
        (pre ++ natToChars (n / 100)).reverse := by
    unfold fracFormat2
    rw [show (natToChars (n / 100) ++
        '.' :: [Nat.digitChar (n % 100 / 10), Nat.digitChar (n % 100 % 10)]) =
        natToChars (n / 100) ++
          ['.', Nat.digitChar (n % 100 / 10), Nat.digitChar (n % 100 % 10)] from rfl]
    rw [← List.append_assoc, List.reverse_append]
    rfl
  unfold twoFracDigits
  rw [hrev]
  simp only [List.getD_cons_zero, List.getD_cons_succ, List.drop_succ_cons,
    List.drop_zero]
  rw [(digitChar_props (show n % 100 % 10 < 10 by omega)).1,
    (digitChar_props (show n % 100 / 10 < 10 by omega)).1]
  rw [List.all_eq_true.mpr hX]
  rfl

theorem twoFracDigits_formatWeight2 (w : ℚ) : twoFracDigits (formatWeight2 w) = true := by
  unfold formatWeight2
  split_ifs with h
  · rw [show ('-' :: fracFormat2 (roundHalfEven (w * 100)).natAbs) =
      ['-'] ++ fracFormat2 (roundHalfEven (w * 100)).natAbs from rfl]
    exact twoFracDigits_append ['-'] _ (by intro c hc; simp at hc; subst hc; rfl)
  · rw [show (fracFormat2 (roundHalfEven (w * 100)).toNat) =
      [] ++ fracFormat2 (roundHalfEven (w * 100)).toNat from rfl]
    exact twoFracDigits_append [] _ (by intro c hc; simp at hc)

-- ## Sample records used by witnesses and counterexamples

/-- A concrete valid record used by witnesses. -/
def sampleRecord : Record := ⟨str "2024-01-01", str "Squat", 3, 5, 100⟩

/-- A record whose exercise name exceeds the `U30` dtype width. -/
def longRecord : Record :=
  ⟨str "2024-01-01", str "a very long exercise name exceeding the thirty character width",
    3, 5, 100⟩

-- ## Claims

/-- C1: `calculate_total_volume` equals the sum over all records of
`sets * reps * weight`, and on an empty collection it returns `0.0` (an
explicit base case, not an error). -/
theorem total_volume_spec (workout_array : List Record) :
    calculate_total_volume workout_array =
      (workout_array.map (fun r => (r.sets : ℚ) * (r.reps : ℚ) * r.weight)).sum ∧
    calculate_total_volume [] = 0 := by
  constructor
  · unfold calculate_total_volume
    split_ifs with h
    · rw [List.length_eq_zero.mp h]
      rfl
    · rfl
  · rfl

/-- C7: `_save_data` writes the literal header row
`date,exercise,sets,reps,weight` first, then exactly one row per record in
store order, each row having exactly 5 fields with the weight rendered with
exactly 2 fractional digits. -/
theorem save_format (log : List Record) :
    (save_data log).head? =
      some [str "date", str "exercise", str "sets", str "reps", str "weight"] ∧
    (save_data log).length = log.length + 1 ∧
    (∀ i : Nat, (save_data log)[i + 1]? = (log[i]?).map recordToRow) ∧
    (∀ r : Record, (recordToRow r).length = 5 ∧
      (recordToRow r)[4]? = some (formatWeight2 r.weight) ∧
      twoFracDigits (formatWeight2 r.weight) = true) := by
  refine ⟨rfl, by simp [save_data], fun i => ?_,
    fun r => ⟨rfl, rfl, twoFracDigits_formatWeight2 r.weight⟩⟩
  unfold save_data
  rw [List.getElem?_cons_succ, List.getElem?_map]

/-- C6: `_load_data` is total: for every file it returns either the empty
store or exactly the parses of the well-formed (5-field) data rows, omitting
rows with the wrong field count; a data row with a non-numeric field (for
example `sets="abc"`) makes the whole load fall back to the empty store, and
a row with the wrong field count is silently skipped. -/
theorem load_never_fails :
    (∀ (fileExists : Bool) (rows : List (List (List Char))),
      load_data fileExists rows = [] ∨
        load_data fileExists rows =
          (rows.tail.filter (fun row => row.length == 5)).filterMap parseRow) ∧
    load_data true [headerRow,
      [str "2024-01-01", str "Squat", str "abc", str "5", str "10.0"]] = [] ∧
    load_data true [headerRow,
      [str "2024-01-01", str "Squat", str "3", str "5", str "10.0", str "extra"],
      [str "2024-01-02", str "Bench", str "2", str "4", str "50.0"]] =
      [⟨str "2024-01-02", str "Bench", 2, 4, 50⟩] := by
  refine ⟨fun fileExists rows => ?_, by with_unfolding_all rfl, by with_unfolding_all rfl⟩
  unfold load_data
  cases fileExists with
  | false => exact Or.inl rfl
  | true =>
    simp only [Bool.not_true, Bool.false_eq_true, if_false]
    cases hl : loadRows rows.tail with
    | none => exact Or.inl rfl
    | some l =>
      right
      simpa using loadRows_eq_filterMap rows.tail l hl

/-- C3: constructing a record from raw textual input fails (the
`ValidationError` dialog) exactly when a numeric field fails to parse, or
`sets <= 0`, `reps <= 0`, `weight < 0`, or the exercise is empty or
whitespace-only after stripping; in particular `sets="0"`, `weight="-0.01"`,
empty and whitespace-only exercise are rejected while `weight="0"` is
accepted. -/
theorem add_entry_validation :
    (∀ (log : List Record) (dateS exerciseS setsS repsS weightS : List Char),
      add_workout_entry log dateS exerciseS setsS repsS weightS = none ↔
        pyParseInt setsS = none ∨ pyParseInt repsS = none ∨
        pyParseFloat weightS = none ∨
        (∃ sets reps weight, pyParseInt setsS = some sets ∧
          pyParseInt repsS = some reps ∧ pyParseFloat weightS = some weight ∧
          (sets ≤ 0 ∨ reps ≤ 0 ∨ weight < 0 ∨ pyStrip exerciseS = []))) ∧
    add_workout_entry [] (str "2024-01-01") (str "Squat") (str "0") (str "5")
      (str "10") = none ∧
    add_workout_entry [] (str "2024-01-01") (str "Squat") (str "3") (str "5")
      (str "-0.01") = none ∧
    add_workout_entry [] (str "2024-01-01") (str "") (str "3") (str "5")
      (str "10") = none ∧
    add_workout_entry [] (str "2024-01-01") (str "   ") (str "3") (str "5")
      (str "10") = none ∧
    add_workout_entry [] (str "2024-01-01") (str "Squat") (str "3") (str "5")
      (str "0") ≠ none := by
  refine ⟨fun log dateS exerciseS setsS repsS weightS => ?_,
    by with_unfolding_all rfl, by with_unfolding_all rfl, by with_unfolding_all rfl,
    by with_unfolding_all rfl, by with_unfolding_all decide⟩
  unfold add_workout_entry
  cases hs : pyParseInt setsS with
  | none => simp [hs]
  | some sets =>
    cases hr : pyParseInt repsS with
    | none => simp [hs, hr]
    | some reps =>
      cases hw : pyParseFloat weightS with
      | none => simp [hs, hr, hw]
      | some weight =>
        simp only [Option.some_bind]
        split_ifs with hcond
        · constructor
          · intro _
            exact Or.inr (Or.inr (Or.inr ⟨sets, reps, weight, rfl, rfl, rfl, hcond⟩))
          · intro _
            rfl
        · constructor
          · intro h
            cases h
          · rintro (h | h | h | ⟨a, b, c, ha, hb, hc, hd⟩)
            · exact h.elim
            · exact h.elim
            · exact h.elim
            · cases ha
              cases hb
              cases hc
              exact absurd hd hcond

/-- C4: for every valid record `r` and every store, appending (the
`np.concatenate` in `add_workout_entry`) puts `r` at the end, grows the store
by exactly one, and reading the store back at the new last index returns a
record equal to `r`. -/
theorem add_appends (log : List Record) (r : Record) (h : RecordValid r) :
    np_append log r = log ++ [r] ∧
    (np_append log r).length = log.length + 1 ∧
    np_get (np_append log r) (log.length : Int) = some r := by
  have htr : truncRecord r = r := truncRecord_eq_self h.2.2.2.2.1 h.2.2.2.2.2
  have happ : np_append log r = log ++ [r] := by
    unfold np_append
    rw [htr]
  refine ⟨happ, by rw [happ]; simp, ?_⟩
  rw [np_get_coe (by rw [happ]; simp), happ]
  rw [List.getElem?_append_right (le_refl log.length)]
  simp

/-- C4 witness: appending the concrete valid record `sampleRecord` to the
empty store makes it readable back at index 0. -/
theorem add_appends_witness :
    RecordValid sampleRecord ∧
    np_get (np_append [] sampleRecord) ((0 : Nat) : Int) = some sampleRecord :=
  ⟨by decide, (add_appends [] sampleRecord (by decide)).2.2⟩

/-- C5: for every store and every valid index `i`, `np.delete` removes
exactly the record at position `i`: the size drops by one, records before
`i` keep their positions, and every record previously at `j > i` is found at
`j - 1`. -/
theorem delete_shifts (log : List Record) (i : Nat) (h : i < log.length) :
    ∃ l, np_delete log (i : Int) = some l ∧
      l.length = log.length - 1 ∧
      (∀ j : Nat, j < i → l[j]? = log[j]?) ∧
      (∀ j : Nat, i < j → j < log.length → l[j - 1]? = log[j]?) := by
  refine ⟨log.eraseIdx i, ?_, ?_, ?_, ?_⟩
  · unfold np_delete
    rw [normIdx_of_lt h]
    rfl
  · rw [List.length_eraseIdx]
    simp [h]
  · intro j hj
    rw [List.eraseIdx_eq_take_drop_succ, List.getElem?_append]
    rw [if_pos (by rw [List.length_take]; omega)]
    rw [List.getElem?_take, if_pos hj]
  · intro j hj1 hj2
    rw [List.eraseIdx_eq_take_drop_succ, List.getElem?_append]
    rw [if_neg (by rw [List.length_take]; omega)]
    rw [List.getElem?_drop]
    congr 1
    rw [List.length_take]
    omega

/-- C5 witness: deleting position 0 from a two-record store shifts the
former position-1 record to position 0. -/
theorem delete_shifts_witness :
    (0 : Nat) < ([sampleRecord, longRecord] : List Record).length ∧
    ∃ l, np_delete [sampleRecord, longRecord] ((0 : Nat) : Int) = some l ∧
      l.length = ([sampleRecord, longRecord] : List Record).length - 1 ∧
      (∀ j : Nat, j < 0 → l[j]? = ([sampleRecord, longRecord] : List Record)[j]?) ∧
      (∀ j : Nat, 0 < j → j < ([sampleRecord, longRecord] : List Record).length →
        l[j - 1]? = ([sampleRecord, longRecord] : List Record)[j]?) :=
  ⟨by decide, delete_shifts [sampleRecord, longRecord] 0 (by decide)⟩

/-- C8: for every store, valid index `i` and valid record `r`, the in-place
assignment `session_log[i] = r` replaces exactly the record at position `i`
with `r`, leaving the size and every other position unchanged. -/
theorem update_frame (log : List Record) (i : Nat) (r : Record)
    (hi : i < log.length) (hr : RecordValid r) :
    ∃ l, np_set log (i : Int) r = some l ∧
      l.length = log.length ∧ l[i]? = some r ∧
      ∀ j : Nat, j ≠ i → l[j]? = log[j]? := by
  have htr : truncRecord r = r := truncRecord_eq_self hr.2.2.2.2.1 hr.2.2.2.2.2
  refine ⟨log.set i (truncRecord r), ?_, by rw [List.length_set], ?_, ?_⟩
  · unfold np_set
    rw [normIdx_of_lt hi]
    rfl
  · rw [htr]
    exact List.getElem?_set_eq_of_lt r hi
  · intro j hj
    exact List.getElem?_set_ne (Ne.symm hj)

/-- C8 witness: updating position 0 of the singleton store `[longRecord]`
(truncated form) with the valid `sampleRecord` stores it there unchanged. -/
theorem update_frame_witness :
    (0 : Nat) < ([truncRecord longRecord] : List Record).length ∧
    RecordValid sampleRecord ∧
    ∃ l, np_set [truncRecord longRecord] ((0 : Nat) : Int) sampleRecord = some l ∧
      l.length = ([truncRecord longRecord] : List Record).length ∧
      l[(0 : Nat)]? = some sampleRecord ∧
      ∀ j : Nat, j ≠ 0 → l[j]? = ([truncRecord longRecord] : List Record)[j]? :=
  ⟨by decide, by decide, update_frame [truncRecord longRecord] 0 sampleRecord
    (by decide) (by decide)⟩

/-- C9 counterexample: on the one-record store, the index `-1` lies outside
`[0, 1)` and yet `session_log[-1]` succeeds (numpy wraps negative indices),
so an access does not fail with `IndexError` for every index outside
`[0, n)`. -/
theorem index_error_counterexample :
    ¬ (0 ≤ (-1 : Int) ∧ (-1 : Int) < (([sampleRecord] : List Record).length : Int)) ∧
    np_get [sampleRecord] (-1) = some sampleRecord ∧
    np_delete [sampleRecord] (-1) = some [] ∧
    np_set [sampleRecord] (-1) sampleRecord = some [sampleRecord] := by
  refine ⟨by decide, by decide, by decide, by decide⟩

/-- C9 as amended: an index-based access (get, update via assignment, or
delete) fails with `IndexError` if and only if the index lies outside
`[-n, n)` — indices in `[0, n)` are used directly and always succeed, and
indices in `[-n, 0)` wrap from the end as numpy indices do. -/
theorem index_error_iff (log : List Record) (i : Int) :
    (np_get log i = none ↔ i < -(log.length : Int) ∨ (log.length : Int) ≤ i) ∧
    (np_delete log i = none ↔ i < -(log.length : Int) ∨ (log.length : Int) ≤ i) ∧
    (∀ r : Record, np_set log i r = none ↔
      i < -(log.length : Int) ∨ (log.length : Int) ≤ i) ∧
    (∀ (j : Nat) (hj : j < log.length),
      np_get log (j : Int) = some (log.get ⟨j, hj⟩)) := by
  have hsplit : ∀ {j : Nat}, normIdx log.length i = some j →
      ¬ (i < -(log.length : Int) ∨ (log.length : Int) ≤ i) := by
    intro j hn hr
    rw [(normIdx_eq_none_iff _ _).mpr hr] at hn
    cases hn
  refine ⟨?_, ?_, fun r => ?_, fun j hj => ?_⟩
  · unfold np_get
    cases hn : normIdx log.length i with
    | none => simp [(normIdx_eq_none_iff _ _).mp hn]
    | some j =>
      have hlt := normIdx_some_lt hn
      simp only [Option.some_bind]
      rw [List.getElem?_eq_getElem hlt]
      simp [hsplit hn]
  · unfold np_delete
    cases hn : normIdx log.length i with
    | none => simp [(normIdx_eq_none_iff _ _).mp hn]
    | some j => simp [hsplit hn]
  · unfold np_set
    cases hn : normIdx log.length i with
    | none => simp [(normIdx_eq_none_iff _ _).mp hn]
    | some j => simp [hsplit hn]
  · rw [np_get_coe hj, List.getElem?_eq_getElem hj]
    rfl

/-- C9 witness: on the one-record store, index 0 succeeds and index 1 fails
with `IndexError`. -/
theorem index_error_iff_witness :
    (0 : Nat) < ([sampleRecord] : List Record).length ∧
    np_get [sampleRecord] ((0 : Nat) : Int) = some sampleRecord ∧
    np_get [sampleRecord] 1 = none :=
  ⟨by decide,
    (index_error_iff [sampleRecord] (((0 : Nat)) : Int)).2.2.2 0 (by decide),
    (index_error_iff [sampleRecord] 1).1.mpr (by decide)⟩

/-- The implicit store invariant imposed by the dtype widths: dates are at
most 10 characters, exercise names at most 30. -/
def StoreInv (log : List Record) : Prop :=
  ∀ r ∈ log, r.date.length ≤ 10 ∧ r.exercise.length ≤ 30

instance (log : List Record) : Decidable (StoreInv log) := by
  unfold StoreInv
  infer_instance

/-- C10: every record held in the store has a date of at most 10 characters
and an exercise name of at most 30; appending, in-place assignment and load
silently truncate longer values to these widths rather than rejecting them,
so the bound is an invariant preserved by every operation. -/
theorem length_invariant :
    (∀ r : Record, (truncRecord r).date.length ≤ 10 ∧
      (truncRecord r).exercise.length ≤ 30) ∧
    (∀ (log : List Record) (r : Record),
      (np_append log r).getLast? = some (truncRecord r)) ∧
    (∀ (log : List Record) (r : Record), StoreInv log → StoreInv (np_append log r)) ∧
    (∀ (log : List Record) (i : Int) (r : Record) (l : List Record),
      StoreInv log → np_set log i r = some l → StoreInv l) ∧
    (∀ (log : List Record) (i : Int) (l : List Record),
      StoreInv log → np_delete log i = some l → StoreInv l) ∧
    (∀ (fileExists : Bool) (rows : List (List (List Char))),
      StoreInv (load_data fileExists rows)) := by
  have htr : ∀ r : Record, (truncRecord r).date.length ≤ 10 ∧
      (truncRecord r).exercise.length ≤ 30 := by
    intro r
    unfold truncRecord
    constructor
    · simp
    · simp
  refine ⟨htr, ?_, ?_, ?_, ?_, ?_⟩
  · intro log r
    unfold np_append
    exact List.getLast?_concat _
  · intro log r hinv x hx
    unfold np_append at hx
    rw [List.mem_append] at hx
    rcases hx with hx | hx
    · exact hinv x hx
    · rw [List.mem_singleton] at hx
      subst hx
      exact htr r
  · intro log i r l hinv hset x hx
    unfold np_set at hset
    cases hn : normIdx log.length i with
    | none => rw [hn] at hset; cases hset
    | some j =>
      rw [hn] at hset
      simp only [Option.map_some', Option.some.injEq] at hset
      subst hset
      rcases List.mem_or_eq_of_mem_set hx with hx | hx
      · exact hinv x hx
      · subst hx
        exact htr r
  · intro log i l hinv hdel x hx
    unfold np_delete at hdel
    cases hn : normIdx log.length i with
    | none => rw [hn] at hdel; cases hdel
    | some j =>
      rw [hn] at hdel
      simp only [Option.map_some', Option.some.injEq] at hdel
      subst hdel
      exact hinv x ((List.eraseIdx_sublist log j).mem hx)
  · intro fileExists rows x hx
    unfold load_data at hx
    cases fileExists with
    | false => cases hx
    | true =>
      simp only [Bool.not_true, Bool.false_eq_true, if_false] at hx
      cases hl : loadRows rows.tail with
      | none => rw [hl] at hx; cases hx
      | some l =>
        rw [hl] at hx
        simp only [Option.getD_some] at hx
        rw [loadRows_eq_filterMap rows.tail l hl] at hx
        obtain ⟨row, _, hrow⟩ := List.mem_filterMap.mp hx
        exact parseRow_mem_bounds hrow

/-- C10 witness: appending a record whose exercise name is 62 characters
long still leaves the store within the dtype bounds (the name is silently
truncated to 30 characters). -/
theorem length_invariant_witness :
    StoreInv [] ∧ StoreInv (np_append [] longRecord) ∧
    (np_append [] longRecord).getLast? = some (truncRecord longRecord) ∧
    ¬ (longRecord.exercise.length ≤ 30) :=
  ⟨by decide, length_invariant.2.2.1 [] longRecord (by decide),
    length_invariant.2.1 [] longRecord, by decide⟩

/-- C2: saving a store whose records satisfy the Record invariants (and the
dtype width bounds) to the row-oriented text format and loading it back
yields the same store, with each weight preserved to 2 decimal places: the
reloaded weight is exactly the 2-decimal rounding of the original, so a
store whose weights already have at most 2 decimals round-trips to equality.
-/
theorem save_load_roundtrip (log : List Record) (h : ∀ r ∈ log, RecordValid r) :
    load_data true (save_data log) =
      log.map (fun r => { r with weight := round2 r.weight }) ∧
    ((∀ r ∈ log, (r.weight * 100).den = 1) →
      load_data true (save_data log) = log) := by
  have h1 : load_data true (save_data log) =
      log.map (fun r => { r with weight := round2 r.weight }) := by
    unfold load_data save_data
    simp only [Bool.not_true, Bool.false_eq_true, if_false, List.tail_cons]
    rw [loadRows_map_recordToRow log h]
    rfl
  refine ⟨h1, fun hden => ?_⟩
  rw [h1]
  have hid : ∀ r ∈ log, ({ r with weight := round2 r.weight } : Record) = id r := by
    intro r hr
    rw [round2_eq_self (hden r hr)]
    rfl
  rw [List.map_congr_left hid, List.map_id]

/-- C2 witness: the singleton store holding `sampleRecord` (weight `100`,
exact in 2 decimals) reloads to itself. -/
theorem save_load_roundtrip_witness :
    (∀ r ∈ [sampleRecord], RecordValid r) ∧
    (∀ r ∈ [sampleRecord], (r.weight * 100).den = 1) ∧
    load_data true (save_data [sampleRecord]) = [sampleRecord] :=
  ⟨by decide, by with_unfolding_all decide,
    (save_load_roundtrip [sampleRecord] (by decide)).2 (by with_unfolding_all decide)⟩
